import Mathlib

/-!
Verification of the `linux-rtfm` core: a shallow embedding in Lean 4 of the
monotonic time abstraction (`src/time.rs`), the deadline-ordered timer queue
(`rtfm/src/tq.rs`), and the priority-ceiling signal-mask engine
(`src/export.rs`), together with proofs about their behaviour.

Machine integers are modelled as `Int` / `Nat` with explicit wrap-around
(`% 2^w`) exactly where the Rust code performs wrapping or casting
(`wrapping_add`, `as u64`, `as u32`, `u8` wrapping subtraction, `usize`
shifts into a 64-bit signal set).  Fallible operations return `Option`.
Syscalls are modelled by returning the arguments the code passes to them
(the signal mask and how it is applied, the `timer_settime` arguments, the
wake-signal decision), since the kernel itself is an external collaborator.
-/

set_option maxRecDepth 10000

namespace RtfmLinux

/-- `timespec_t` from the `nc` crate: both fields are `isize` (64-bit on the
supported x86_64/aarch64 targets), modelled as unbounded `Int` with
representability handled explicitly at each arithmetic step. -/
structure timespec_t where
  tv_sec : Int
  tv_nsec : Int
  deriving DecidableEq

/-- `Instant` from `src/time.rs`: a monotonic timestamp wrapping a `timespec_t`. -/
structure Instant where
  ts : timespec_t
  deriving DecidableEq

/-- `core::time::Duration` (external std collaborator): whole seconds (`u64`)
and sub-second nanoseconds (`u32`, kept below `10^9` by std's constructors). -/
structure Duration where
  secs : Nat
  nanos : Nat
  deriving DecidableEq

/-- std's invariant on `Duration`: `subsec_nanos()` is below `10^9`. -/
def Duration.wf (d : Duration) : Prop := d.nanos < 1000000000

instance (d : Duration) : Decidable d.wf :=
  inferInstanceAs (Decidable (_ < _))

/-- The representable range of `Instant`: the data-model invariant (seconds
non-negative and representable as `isize`, nanoseconds in `[0, 10^9)`). -/
def Instant.wf (i : Instant) : Prop :=
  0 ≤ i.ts.tv_sec ∧ i.ts.tv_sec ≤ 9223372036854775807 ∧
    0 ≤ i.ts.tv_nsec ∧ i.ts.tv_nsec < 1000000000

instance (i : Instant) : Decidable i.wf :=
  inferInstanceAs (Decidable (_ ∧ _))

/-- `<Instant as PartialOrd>::partial_cmp` (`src/time.rs:21-37`): seconds
first, nanoseconds as tiebreak; every branch produces `Some`. -/
def instantCmpOpt (a b : Instant) : Option Ordering :=
  if a.ts.tv_sec < b.ts.tv_sec then some Ordering.lt
  else if a.ts.tv_sec > b.ts.tv_sec then some Ordering.gt
  else if a.ts.tv_nsec < b.ts.tv_nsec then some Ordering.lt
  else if a.ts.tv_nsec > b.ts.tv_nsec then some Ordering.gt
  else some Ordering.eq

/-- Rust `a < b` on `Instant`: `partial_cmp` matched against `Some(Less)`. -/
def instantLt (a b : Instant) : Prop := instantCmpOpt a b = some Ordering.lt

/-- Rust `a <= b` on `Instant`: `partial_cmp` in `Some(Less | Equal)`. -/
def instantLe (a b : Instant) : Prop :=
  instantCmpOpt a b = some Ordering.lt ∨ instantCmpOpt a b = some Ordering.eq

/-- Rust `a >= b` on `Instant`: `partial_cmp` in `Some(Greater | Equal)`. -/
def instantGe (a b : Instant) : Prop :=
  instantCmpOpt a b = some Ordering.gt ∨ instantCmpOpt a b = some Ordering.eq

instance (a b : Instant) : Decidable (instantLt a b) :=
  inferInstanceAs (Decidable (_ = _))

instance (a b : Instant) : Decidable (instantLe a b) :=
  inferInstanceAs (Decidable (_ ∨ _))

instance (a b : Instant) : Decidable (instantGe a b) :=
  inferInstanceAs (Decidable (_ ∨ _))

/-- `isize::checked_add` on 64-bit targets. -/
def checkedAddI (a b : Int) : Option Int :=
  if -9223372036854775808 ≤ a + b ∧ a + b ≤ 9223372036854775807 then some (a + b)
  else none

/-- `isize::wrapping_add`'s effect on an exact `Int` sum: two's-complement
wrap-around into `[-2^63, 2^63)`. -/
def wrapI64 (x : Int) : Int :=
  (x + 9223372036854775808) % 18446744073709551616 - 9223372036854775808

/-- `Instant::checked_add` (`src/time.rs:61-81`), translated line by line:
`isize::try_from(dur.as_secs())` fails above `isize::MAX`; seconds are added
with `checked_add`; `tv_nsec` and `subsec_nanos` are added with
`wrapping_add`; the carry branch fires only when the nanosecond sum is
*strictly greater* than `10^9` (the source's `nanos > NANOS_IN_ONE_SEC`). -/
def Instant.checked_add (i : Instant) (dur : Duration) : Option Instant :=
  match (if (dur.secs : Int) ≤ 9223372036854775807 then some ((dur.secs : Int)) else none) with
  | none => none
  | some ds =>
    match checkedAddI i.ts.tv_sec ds with
    | none => none
    | some secs =>
      let nanos := wrapI64 (i.ts.tv_nsec + (dur.nanos : Int))
      if nanos > 1000000000 then
        match checkedAddI secs 1 with
        | none => none
        | some secs2 => some ⟨⟨secs2, nanos - 1000000000⟩⟩
      else some ⟨⟨secs, nanos⟩⟩

/-- Rust `x as u64` for `x : isize`: truncation to the low 64 bits. -/
def u64cast (x : Int) : Nat := (x % 18446744073709551616).toNat

/-- Rust `x as u32` for `x : isize`: truncation to the low 32 bits. -/
def u32cast (x : Int) : Nat := (x % 4294967296).toNat

/-- `Duration::new` (external std collaborator): carries whole seconds out of
the nanosecond argument.  (std panics if the carry overflows `u64`; that case
is unreachable in every use below because the nanosecond argument is a `u32`.) -/
def Duration.new (s n : Nat) : Duration := ⟨s + n / 1000000000, n % 1000000000⟩

/-- `Instant::checked_duration_since` (`src/time.rs:85-105`): `None` when
`self < earlier`; otherwise subtracts nanoseconds with a borrow from seconds
when the nanosecond subtraction would go negative, and builds the `Duration`
through the `as u64` / `as u32` casts the source performs. -/
def Instant.checked_duration_since (b a : Instant) : Option Duration :=
  if instantLt b a then none
  else if a.ts.tv_nsec ≤ b.ts.tv_nsec then
    some (Duration.new (u64cast (b.ts.tv_sec - a.ts.tv_sec))
      (u32cast (b.ts.tv_nsec - a.ts.tv_nsec)))
  else
    some (Duration.new (u64cast (b.ts.tv_sec - 1 - a.ts.tv_sec))
      (u32cast (b.ts.tv_nsec + 1000000000 - a.ts.tv_nsec)))

/-- `Instant::saturating_duration_since` (`src/time.rs:109-112`). -/
def Instant.saturating_duration_since (b a : Instant) : Duration :=
  (Instant.checked_duration_since b a).getD (Duration.new 0 0)

/-- `<core::time::Duration as Add>::add` (external std collaborator): adds
seconds and sub-second nanoseconds with a single carry.  (std panics on `u64`
overflow of the seconds; not modelled, unreachable at every use below.) -/
def durAdd (d1 d2 : Duration) : Duration :=
  let n := d1.nanos + d2.nanos
  if n ≥ 1000000000 then ⟨d1.secs + d2.secs + 1, n - 1000000000⟩
  else ⟨d1.secs + d2.secs, n⟩

lemma instantLt_iff (a b : Instant) :
    instantLt a b ↔
      (a.ts.tv_sec < b.ts.tv_sec ∨
        (a.ts.tv_sec = b.ts.tv_sec ∧ a.ts.tv_nsec < b.ts.tv_nsec)) := by
  unfold instantLt instantCmpOpt
  split_ifs <;> simp_all <;> omega

lemma instantLe_iff (a b : Instant) :
    instantLe a b ↔
      (a.ts.tv_sec < b.ts.tv_sec ∨
        (a.ts.tv_sec = b.ts.tv_sec ∧ a.ts.tv_nsec ≤ b.ts.tv_nsec)) := by
  unfold instantLe instantCmpOpt
  split_ifs <;> simp_all <;> omega

lemma instantGe_iff (a b : Instant) :
    instantGe a b ↔
      (b.ts.tv_sec < a.ts.tv_sec ∨
        (b.ts.tv_sec = a.ts.tv_sec ∧ b.ts.tv_nsec ≤ a.ts.tv_nsec)) := by
  unfold instantGe instantCmpOpt
  split_ifs <;> simp_all <;> omega

/-- C9: `Instant::partial_cmp` always returns `Some` — comparing seconds
first, then nanoseconds as tiebreak — so `Ord::cmp`'s internal
`partial_cmp(..).unwrap()` can never panic, and the comparison is total:
`Some(Less)` exactly on lexicographic less-than and `Some(Equal)` exactly on
field equality. -/
theorem instant_cmp_total (a b : Instant) :
    (instantCmpOpt a b).isSome = true ∧
    (instantCmpOpt a b = some Ordering.lt ↔
      (a.ts.tv_sec < b.ts.tv_sec ∨
        (a.ts.tv_sec = b.ts.tv_sec ∧ a.ts.tv_nsec < b.ts.tv_nsec))) ∧
    (instantCmpOpt a b = some Ordering.eq ↔ a = b) := by
  obtain ⟨⟨as1, an1⟩⟩ := a
  obtain ⟨⟨bs1, bn1⟩⟩ := b
  unfold instantCmpOpt
  refine ⟨?_, ?_, ?_⟩ <;> split_ifs <;>
    simp_all [Instant.mk.injEq, timespec_t.mk.injEq] <;> omega

/-- C1: at the boundary where the sub-second nanoseconds sum to exactly
`10^9`, `Instant::checked_add` returns an un-normalized instant whose
nanosecond field equals `10^9` — the carry branch tests `nanos > 10^9`
instead of `nanos >= 10^9`, contradicting the normalization the data model
and the source's own `NOTE` comment require. -/
theorem checked_add_boundary_bug :
    ∃ t, Instant.checked_add ⟨⟨0, 500000000⟩⟩ ⟨0, 500000000⟩ = some t ∧
      ¬ t.ts.tv_nsec < 1000000000 :=
  ⟨⟨⟨0, 1000000000⟩⟩, by decide, by decide⟩

/-- C7: associativity of `checked_add` fails at the same normalization
boundary: starting from `(0s, 0ns)`, adding `0.5 s` twice yields the
un-normalized `(0s, 10^9 ns)`, while adding the pre-summed `1 s` duration
yields `(1s, 0ns)`; all three additions succeed yet the results differ under
`Instant` equality. -/
theorem checked_add_assoc_cex :
    ∃ t1 t2 t12 : Instant,
      Instant.checked_add ⟨⟨0, 0⟩⟩ ⟨0, 500000000⟩ = some t1 ∧
      Instant.checked_add t1 ⟨0, 500000000⟩ = some t2 ∧
      Instant.checked_add ⟨⟨0, 0⟩⟩ (durAdd ⟨0, 500000000⟩ ⟨0, 500000000⟩) = some t12 ∧
      t2 ≠ t12 :=
  ⟨⟨⟨0, 500000000⟩⟩, ⟨⟨0, 1000000000⟩⟩, ⟨⟨1, 0⟩⟩,
    by decide, by decide, by decide, by decide⟩

/-- C6: for well-formed instants, `b.checked_duration_since(a)` is `Some`
exactly when `a <= b`; the result is then the exact difference, with
nanoseconds in `[0, 10^9)` (a negative nanosecond subtraction borrows one
second); and when `a > b` it is `None` while `saturating_duration_since`
yields the zero duration. -/
theorem checked_duration_since_spec (a b : Instant) (ha : a.wf) (hb : b.wf) :
    ((Instant.checked_duration_since b a).isSome = true ↔ instantLe a b) ∧
    (∀ d, Instant.checked_duration_since b a = some d →
      d.nanos < 1000000000 ∧
      (d.secs : Int) * 1000000000 + (d.nanos : Int) =
        (b.ts.tv_sec * 1000000000 + b.ts.tv_nsec) -
          (a.ts.tv_sec * 1000000000 + a.ts.tv_nsec)) ∧
    (instantLt b a →
      Instant.checked_duration_since b a = none ∧
      Instant.saturating_duration_since b a = Duration.new 0 0) := by
  obtain ⟨ha1, ha2, ha3, ha4⟩ := ha
  obtain ⟨hb1, hb2, hb3, hb4⟩ := hb
  by_cases hlt : instantLt b a
  · have hlex := (instantLt_iff b a).mp hlt
    refine ⟨?_, ?_, ?_⟩
    · rw [Instant.checked_duration_since, if_pos hlt]
      simp [instantLe_iff]
      omega
    · intro d hd
      rw [Instant.checked_duration_since, if_pos hlt] at hd
      exact absurd hd (by simp)
    · intro _
      constructor
      · rw [Instant.checked_duration_since, if_pos hlt]
      · rw [Instant.saturating_duration_since, Instant.checked_duration_since,
          if_pos hlt]
        rfl
  · have hlex := (instantLt_iff b a).not.mp hlt
    push_neg at hlex
    obtain ⟨hlex1, hlex2⟩ := hlex
    refine ⟨?_, ?_, ?_⟩
    · rw [Instant.checked_duration_since, if_neg hlt]
      have hle : instantLe a b := by
        rw [instantLe_iff]
        by_cases hseq : a.ts.tv_sec = b.ts.tv_sec
        · exact Or.inr ⟨hseq, hlex2 hseq.symm⟩
        · exact Or.inl (by omega)
      split_ifs <;> simp [hle]
    · intro d hd
      rw [Instant.checked_duration_since, if_neg hlt] at hd
      by_cases hn : a.ts.tv_nsec ≤ b.ts.tv_nsec
      · rw [if_pos hn] at hd
        obtain ⟨⟩ := hd.symm
        simp only [Duration.new, u64cast, u32cast]
        constructor <;> push_cast <;> omega
      · rw [if_neg hn] at hd
        push_neg at hn
        have hsec : a.ts.tv_sec < b.ts.tv_sec := by
          rcases eq_or_lt_of_le hlex1 with h2 | h2
          · exact absurd (hlex2 h2.symm) (by omega)
          · exact h2
        obtain ⟨⟩ := hd.symm
        simp only [Duration.new, u64cast, u32cast]
        constructor <;> push_cast <;> omega
    · intro h
      exact absurd h hlt

/-- Closed witness for C6 at a concrete borrow-requiring input. -/
theorem checked_duration_since_spec_witness :
    instantLe ⟨⟨1, 5⟩⟩ ⟨⟨2, 3⟩⟩ ∧
      (Instant.checked_duration_since ⟨⟨2, 3⟩⟩ ⟨⟨1, 5⟩⟩).isSome = true :=
  have h := checked_duration_since_spec ⟨⟨1, 5⟩⟩ ⟨⟨2, 3⟩⟩ (by decide) (by decide)
  ⟨by decide, h.1.mpr (by decide)⟩

/-- `NotReady` (`rtfm/src/tq.rs:75-82`): a deadline entry holding a dispatch
index (`u8`), an activation deadline, and a task identifier.  Its `Ord`
implementation compares solely by `instant`. -/
structure NotReady (α : Type) where
  index : Nat
  instant : Instant
  task : α
  deriving DecidableEq

/-- The `heapless` min-heap of `NotReady` entries (external collaborator: a
bounded min-heap under the `Ord` on `NotReady`, which compares only
deadlines) modelled as a list kept sorted by deadline, so that `peek` is the
head (a minimum), `push` inserts in order, and `pop` drops the head.  The
capacity bound is the caller's obligation (`push_unchecked`) and is not
modelled. -/
abbrev TimerQueue (α : Type) : Type := List (NotReady α)

/-- `BinaryHeap::push` under the deadline order: ordered insertion; an entry
whose deadline ties an existing one goes after it (a deterministic
tie-break, which the heap leaves unspecified). -/
def heapPush {α : Type} (nr : NotReady α) : TimerQueue α → TimerQueue α
  | [] => [nr]
  | e :: es =>
    if instantLt nr.instant e.instant then nr :: e :: es
    else e :: heapPush nr es

/-- The min-heap representation invariant of the model: the list is sorted by
deadline (so the head is an entry with minimal deadline, as `peek` promises). -/
def TQSorted {α : Type} (q : TimerQueue α) : Prop :=
  q.Pairwise (fun e1 e2 => ¬ instantLt e2.instant e1.instant)

instance {α : Type} (q : TimerQueue α) : Decidable (TQSorted q) :=
  inferInstanceAs (Decidable (List.Pairwise _ _))

/-- `TimerQueue::enqueue_unchecked` (`rtfm/src/tq.rs:17-40`): before pushing,
compare the new entry's deadline against the current root
(`peek().map(|head| nr.instant < head.instant).unwrap_or(true)`); on `true`
deliver the wake signal (`tgkill`/`kill`, modelled as the returned `Bool`),
then push the entry. -/
def TimerQueue.enqueue_unchecked {α : Type} (nr : NotReady α) (q : TimerQueue α) :
    Bool × TimerQueue α :=
  (match q.head? with
   | some head => decide (instantLt nr.instant head.instant)
   | none => true,
   heapPush nr q)

/-- `itimerspec_t` from the `nc` crate. -/
structure itimerspec_t where
  it_interval : timespec_t
  it_value : timespec_t
  deriving DecidableEq

/-- Linux `TIMER_ABSTIME` flag value. -/
def TIMER_ABSTIME : Nat := 1

/-- The arguments `dequeue` passes to `timer_settime` when it arms the
core's timer: the flag word and the new `itimerspec_t`. -/
structure TimerSetCall where
  flags : Nat
  new_value : itimerspec_t
  deriving DecidableEq

/-- `TimerQueue::dequeue` (`rtfm/src/tq.rs:42-72`): with the sampled `now`
passed explicitly, returns the `(task, index)` it yields (if any), the queue
afterwards, and the `timer_settime` call it makes (if any).  Empty queue:
`None`, nothing armed.  Root due (`now >= instant`): pop and return the
root's payload.  Root in the future: arm the timer with `TIMER_ABSTIME`,
zero interval and the root's deadline as absolute value, return `None`. -/
def TimerQueue.dequeue {α : Type} (now : Instant) :
    TimerQueue α → Option (α × Nat) × TimerQueue α × Option TimerSetCall
  | [] => (none, [], none)
  | e :: es =>
    if instantGe now e.instant then
      (some (e.task, e.index), es, none)
    else
      (none, e :: es, some ⟨TIMER_ABSTIME, ⟨⟨0, 0⟩, e.instant.ts⟩⟩)

/-- A sequence of `enqueue_unchecked` calls starting from the empty queue. -/
def TimerQueue.enqueueAll {α : Type} (es : List (NotReady α)) : TimerQueue α :=
  es.foldl (fun q nr => (TimerQueue.enqueue_unchecked nr q).2) []

lemma mem_heapPush {α : Type} (nr x : NotReady α) (q : TimerQueue α) :
    x ∈ heapPush nr q ↔ x = nr ∨ x ∈ q := by
  induction q with
  | nil => simp [heapPush]
  | cons e es ih =>
    unfold heapPush
    split_ifs
    · simp
    · simp [ih]
      tauto

lemma heapPush_sorted {α : Type} (nr : NotReady α) (q : TimerQueue α)
    (hq : TQSorted q) : TQSorted (heapPush nr q) := by
  induction q with
  | nil => simp [heapPush, TQSorted]
  | cons e es ih =>
    rw [TQSorted, List.pairwise_cons] at hq
    obtain ⟨he, hes⟩ := hq
    unfold heapPush
    split_ifs with hcmp
    · rw [TQSorted, List.pairwise_cons]
      refine ⟨?_, List.pairwise_cons.mpr ⟨he, hes⟩⟩
      intro x hx
      rcases List.mem_cons.mp hx with hx | hx
      · subst hx
        rw [instantLt_iff] at hcmp ⊢
        omega
      · have h2 := he x hx
        rw [instantLt_iff] at hcmp h2 ⊢
        omega
    · rw [TQSorted, List.pairwise_cons]
      refine ⟨?_, ih hes⟩
      intro x hx
      rcases (mem_heapPush nr x es).mp hx with hx | hx
      · subst hx
        exact hcmp
      · exact he x hx

lemma heapPush_perm {α : Type} (nr : NotReady α) (q : TimerQueue α) :
    (heapPush nr q).Perm (nr :: q) := by
  induction q with
  | nil => simp [heapPush]
  | cons e es ih =>
    unfold heapPush
    split_ifs
    · exact List.Perm.refl _
    · exact (ih.cons e).trans (List.Perm.swap nr e es)

lemma enqueueAll_sorted {α : Type} (es : List (NotReady α)) :
    TQSorted (TimerQueue.enqueueAll es) := by
  suffices h : ∀ q : TimerQueue α, TQSorted q →
      TQSorted (es.foldl (fun q nr => (TimerQueue.enqueue_unchecked nr q).2) q) from
    h [] (by simp [TQSorted])
  induction es with
  | nil => intro q hq; simpa using hq
  | cons e es ih =>
    intro q hq
    exact ih _ (heapPush_sorted e q hq)

/-- C3: `enqueue_unchecked` delivers the wake signal exactly when the queue
is empty or the new entry's deadline is strictly earlier than the current
root's; equivalently (by the heap invariant) exactly when the new deadline is
strictly earlier than every queued deadline.  The decision is taken against
the queue before insertion, and the entry is then pushed (the resulting
queue holds the old entries plus the new one). -/
theorem enqueue_wake_spec {α : Type} (nr : NotReady α) (q : TimerQueue α)
    (hq : TQSorted q) :
    ((TimerQueue.enqueue_unchecked nr q).1 = true ↔
      (q.head? = none ∨ ∃ hd, q.head? = some hd ∧ instantLt nr.instant hd.instant)) ∧
    ((TimerQueue.enqueue_unchecked nr q).1 = true ↔
      ∀ e ∈ q, instantLt nr.instant e.instant) ∧
    (TimerQueue.enqueue_unchecked nr q).2.Perm (nr :: q) := by
  refine ⟨?_, ?_, heapPush_perm nr q⟩ <;> cases q with
  | nil => simp [TimerQueue.enqueue_unchecked]
  | cons e es =>
    rw [TQSorted, List.pairwise_cons] at hq
    simp only [TimerQueue.enqueue_unchecked, List.head?_cons, decide_eq_true_eq]
    first
    | · constructor
        · intro h
          exact Or.inr ⟨e, rfl, h⟩
        · rintro (h | ⟨hd, hhd, h⟩)
          · exact absurd h (by simp)
          · cases Option.some.inj hhd
            exact h
    | · constructor
        · intro h x hx
          rcases List.mem_cons.mp hx with hx | hx
          · subst hx; exact h
          · have := hq.1 x hx
            rw [instantLt_iff] at h this ⊢
            omega
        · intro h
          exact h e (List.mem_cons_self e es)

/-- Closed witness for C3: enqueueing a strictly earlier deadline into a
non-empty queue triggers the wake signal. -/
theorem enqueue_wake_spec_witness :
    (TimerQueue.enqueue_unchecked ⟨1, ⟨⟨0, 0⟩⟩, (7 : Nat)⟩ [⟨2, ⟨⟨1, 0⟩⟩, 8⟩]).1 = true :=
  (enqueue_wake_spec ⟨1, ⟨⟨0, 0⟩⟩, (7 : Nat)⟩ [⟨2, ⟨⟨1, 0⟩⟩, 8⟩] (by decide)).2.1.mpr
    (by decide)

/-- C4: on a non-empty queue, `dequeue` returns the root's `(task, index)`
exactly when `now >= root.deadline`; when the root is still in the future it
returns nothing, leaves the queue unchanged, and arms the timer with
`TIMER_ABSTIME`, zero interval, and exactly the root's deadline as the
absolute expiry value. -/
theorem dequeue_due_spec {α : Type} (now : Instant) (e : NotReady α)
    (es : TimerQueue α) :
    ((TimerQueue.dequeue now (e :: es)).1 = some (e.task, e.index) ↔
      instantGe now e.instant) ∧
    (instantGe now e.instant →
      TimerQueue.dequeue now (e :: es) = (some (e.task, e.index), es, none)) ∧
    (¬ instantGe now e.instant →
      TimerQueue.dequeue now (e :: es) =
        (none, e :: es, some ⟨TIMER_ABSTIME, ⟨⟨0, 0⟩, e.instant.ts⟩⟩)) := by
  refine ⟨?_, ?_, ?_⟩
  · simp only [TimerQueue.dequeue]
    split_ifs with h <;> simp [h]
  · intro h
    simp only [TimerQueue.dequeue]
    rw [if_pos h]
  · intro h
    simp only [TimerQueue.dequeue]
    rw [if_neg h]

/-- Closed witness for C4: a future root is not returned and the timer is
armed at exactly its deadline in absolute mode. -/
theorem dequeue_due_spec_witness :
    TimerQueue.dequeue ⟨⟨1, 0⟩⟩ [(⟨3, ⟨⟨2, 5⟩⟩, (9 : Nat)⟩ : NotReady Nat)] =
      (none, [⟨3, ⟨⟨2, 5⟩⟩, 9⟩], some ⟨TIMER_ABSTIME, ⟨⟨0, 0⟩, ⟨2, 5⟩⟩⟩) :=
  (dequeue_due_spec ⟨⟨1, 0⟩⟩ ⟨3, ⟨⟨2, 5⟩⟩, (9 : Nat)⟩ []).2.2 (by decide)

/-- C8: after any sequence of enqueues starting from the empty queue, a
successful `dequeue` returns the payload of the queue's root, and that root's
deadline is minimal among all entries currently in the queue. -/
theorem dequeue_min_spec {α : Type} (now : Instant) (es : List (NotReady α))
    (t : α) (i : Nat)
    (h : (TimerQueue.dequeue now (TimerQueue.enqueueAll es)).1 = some (t, i)) :
    ∃ e, (TimerQueue.enqueueAll es).head? = some e ∧ e.task = t ∧ e.index = i ∧
      ∀ e2 ∈ TimerQueue.enqueueAll es, ¬ instantLt e2.instant e.instant := by
  have hs := enqueueAll_sorted es
  rcases hq : TimerQueue.enqueueAll es with _ | ⟨e, rest⟩
  · rw [hq] at h
    exact absurd h (by simp [TimerQueue.dequeue])
  · rw [hq] at h hs
    rw [TQSorted, List.pairwise_cons] at hs
    simp only [TimerQueue.dequeue] at h
    split_ifs at h with hge
    · obtain ⟨ht, hi⟩ := Prod.mk.injEq .. ▸ Option.some.inj h
      refine ⟨e, rfl, ht.symm ▸ rfl, hi.symm ▸ rfl, ?_⟩
      intro e2 he2
      rcases List.mem_cons.mp he2 with he2 | he2
      · subst he2
        rw [instantLt_iff]
        omega
      · exact hs.1 e2 he2

/-- Closed witness for C8: with two entries enqueued out of deadline order,
the dequeued entry is the root and carries the minimal deadline. -/
theorem dequeue_min_spec_witness :
    ∃ e, (TimerQueue.enqueueAll
        [⟨1, ⟨⟨5, 0⟩⟩, (10 : Nat)⟩, ⟨2, ⟨⟨3, 0⟩⟩, 20⟩]).head? = some e ∧
      e.task = 20 ∧ e.index = 2 ∧
      ∀ e2 ∈ TimerQueue.enqueueAll [⟨1, ⟨⟨5, 0⟩⟩, (10 : Nat)⟩, ⟨2, ⟨⟨3, 0⟩⟩, 20⟩],
        ¬ instantLt e2.instant e.instant :=
  dequeue_min_spec ⟨⟨7, 0⟩⟩ [⟨1, ⟨⟨5, 0⟩⟩, (10 : Nat)⟩, ⟨2, ⟨⟨3, 0⟩⟩, 20⟩] 20 2
    (by decide)

/-- C10: on the empty queue, `dequeue` returns `None`, performs no
`timer_settime` call (the previously armed timer state is untouched), and
leaves the queue empty. -/
theorem dequeue_empty_spec {α : Type} (now : Instant) :
    TimerQueue.dequeue now ([] : TimerQueue α) = (none, [], none) := rfl

/-- `u8` wrapping addition. -/
def wadd8 (a b : Nat) : Nat := (a + b) % 256

/-- `u8` wrapping subtraction. -/
def wsub8 (a b : Nat) : Nat := (a % 256 + (256 - b % 256)) % 256

/-- Linux raw `SIGRTMIN` (signal 32), as the `nc` crate defines it. -/
def SIGRTMIN : Nat := 32

/-- The signal-set word computed by `mask` (`src/export.rs:209-213`):
`((1 << (ceiling - current)) - 1) << (SIGRTMIN - 1 + (start + len - ceiling))`
with `len = end.wrapping_sub(start)`, all `u8` steps wrapping and the
`usize` result living in the 64-bit `sigset_t` word. -/
def sigMaskValue (start end_ current ceiling : Nat) : Nat :=
  let len := wsub8 end_ start
  (((1 <<< wsub8 ceiling current) - 1) <<<
    (SIGRTMIN - 1 + wsub8 (wadd8 start len) ceiling)) % 2 ^ 64

/-- `rt_sigprocmask` on the 64-bit blocked-signal word: `SIG_BLOCK` unions
the mask in, `SIG_UNBLOCK` clears exactly the mask's bits. -/
def rt_sigprocmask (block : Bool) (m blocked : Nat) : Nat :=
  if block then blocked ||| m else blocked &&& ((2 ^ 64 - 1) ^^^ m)

/-- The mutable per-context state `lock` manipulates: the `Priority` cell and
the calling context's blocked-signal word. -/
structure LockState where
  pri : Nat
  blocked : Nat
  deriving DecidableEq

/-- The shape of a critical-section body: straight-line resource work
(`skip`), sequencing, or a nested `lock` at some ceiling.  This is the
language of arbitrarily nested `lock` calls. -/
inductive Body where
  | skip : Body
  | seq : Body → Body → Body
  | lock : Nat → Body → Body
  deriving DecidableEq

/-- Configuration discipline: every ceiling appearing in a body is a priority
of the range, i.e. at most the range's length. -/
def BodyWF (bound : Nat) : Body → Bool
  | .skip => true
  | .seq b1 b2 => BodyWF bound b1 && BodyWF bound b2
  | .lock c b => decide (c ≤ bound) && BodyWF bound b

/-- The state transformer of `lock` (`src/export.rs:188-207`), interpreted
over `Body`: if `current < ceiling`, raise the priority cell to `ceiling`,
`SIG_BLOCK` the computed mask, run the body, `SIG_UNBLOCK` the same mask and
write the saved priority back; otherwise run the body directly. -/
def runBody (start end_ : Nat) : Body → LockState → LockState
  | .skip, s => s
  | .seq b1 b2, s => runBody start end_ b2 (runBody start end_ b1 s)
  | .lock c b, s =>
    if s.pri < c then
      let m := sigMaskValue start end_ s.pri c
      let s1 := runBody start end_ b ⟨c, rt_sigprocmask true m s.blocked⟩
      ⟨s.pri, rt_sigprocmask false m s1.blocked⟩
    else
      runBody start end_ b s

/-- State invariant at a `lock` call site: the blocked word fits the 64-bit
signal set, and no signal of a priority strictly above the current one
(within the range) is blocked — which is exactly the situation `register`'s
handler masks and previous well-nested locks establish. -/
def LockInv (start end_ : Nat) (s : LockState) : Prop :=
  s.blocked < 2 ^ 64 ∧
    ∀ p, p ≤ end_ - start → s.pri < p →
      s.blocked.testBit (SIGRTMIN - 1 + (end_ - p)) = false

/-- `register` (`src/export.rs:241-266`): the signal number it installs the
handler on, and the `sa_mask` word it presets, for `range = start..end` and
`priority`.  `sa_mask = ((2^len - 1) ^ ((2^len - 1) >> (priority-1))) <<
(start + SIGRTMIN - 1)` and the handler goes on signal
`SIGRTMIN + (end - priority)`. -/
def register (start end_ priority : Nat) : Nat × Nat :=
  let len := wsub8 end_ start
  let mask0 := ((1 <<< len) - 1) % 2 ^ 64
  let mask1 := mask0 ^^^ (mask0 >>> (wsub8 priority 1))
  let maskWord := (mask1 <<< (start + SIGRTMIN - 1)) % 2 ^ 64
  (SIGRTMIN + wsub8 end_ priority, maskWord)

lemma wadd8_eq {a b : Nat} (h : a + b < 256) : wadd8 a b = a + b :=
  Nat.mod_eq_of_lt h

lemma wsub8_eq {a b : Nat} (h1 : b ≤ a) (h2 : a < 256) : wsub8 a b = a - b := by
  unfold wsub8
  rw [Nat.mod_eq_of_lt (lt_of_le_of_lt h1 h2), Nat.mod_eq_of_lt h2]
  have h3 : a + (256 - b) = (a - b) + 256 := by omega
  rw [h3, Nat.add_mod_right, Nat.mod_eq_of_lt (by omega)]

lemma maskRange_testBit (d sh k : Nat) :
    ((2 ^ d - 1) <<< sh).testBit k = true ↔ (sh ≤ k ∧ k < sh + d) := by
  rw [Nat.testBit_shiftLeft, Nat.testBit_two_pow_sub_one]
  simp only [Bool.and_eq_true, decide_eq_true_eq, ge_iff_le]
  omega

lemma maskRange_lt (d sh : Nat) (h : d + sh ≤ 64) :
    (2 ^ d - 1) <<< sh < 2 ^ 64 := by
  rw [Nat.shiftLeft_eq]
  calc (2 ^ d - 1) * 2 ^ sh < 2 ^ d * 2 ^ sh :=
        mul_lt_mul_of_pos_right (Nat.sub_lt (pow_pos (by norm_num) _) one_pos)
          (pow_pos (by norm_num) _)
    _ = 2 ^ (d + sh) := (pow_add 2 d sh).symm
    _ ≤ 2 ^ 64 := Nat.pow_le_pow_right (by norm_num) h

lemma sigMaskValue_eq (start end_ cur c : Nat) (h0 : start ≤ end_)
    (h1 : end_ ≤ 33) (hc : cur ≤ c) (hcl : c ≤ end_ - start) :
    sigMaskValue start end_ cur c =
      (2 ^ (c - cur) - 1) <<< (SIGRTMIN - 1 + (end_ - c)) := by
  have h256 : end_ < 256 := by omega
  have hce : c ≤ end_ := by omega
  simp only [sigMaskValue]
  rw [wsub8_eq h0 h256, wadd8_eq (by omega), show start + (end_ - start) = end_ by omega,
    wsub8_eq hce h256, wsub8_eq hc (by omega), Nat.one_shiftLeft]
  exact Nat.mod_eq_of_lt (maskRange_lt _ _ (by simp only [SIGRTMIN]; omega))

lemma sigMaskValue_testBit (start end_ cur c k : Nat) (h0 : start ≤ end_)
    (h1 : end_ ≤ 33) (hc : cur ≤ c) (hcl : c ≤ end_ - start) :
    (sigMaskValue start end_ cur c).testBit k = true ↔
      ∃ p, cur < p ∧ p ≤ c ∧ k = SIGRTMIN - 1 + (end_ - p) := by
  rw [sigMaskValue_eq start end_ cur c h0 h1 hc hcl, maskRange_testBit]
  simp only [SIGRTMIN]
  constructor
  · rintro ⟨hk1, hk2⟩
    exact ⟨31 + end_ - k, by omega, by omega, by omega⟩
  · rintro ⟨p, hp1, hp2, rfl⟩
    omega

lemma sigMaskValue_lt (start end_ cur c : Nat) :
    sigMaskValue start end_ cur c < 2 ^ 64 :=
  Nat.mod_lt _ (by positivity)

lemma runBody_restore (start end_ : Nat) (h0 : start ≤ end_) (h1 : end_ ≤ 33)
    (b : Body) (s : LockState) (hwf : BodyWF (end_ - start) b = true)
    (hinv : LockInv start end_ s) :
    runBody start end_ b s = s := by
  induction b generalizing s with
  | skip => rfl
  | seq b1 b2 ih1 ih2 =>
    simp only [BodyWF, Bool.and_eq_true] at hwf
    simp only [runBody]
    rw [ih1 _ hwf.1 hinv, ih2 _ hwf.2 hinv]
  | lock c b ih =>
    simp only [BodyWF, Bool.and_eq_true, decide_eq_true_eq] at hwf
    obtain ⟨hcb, hwfb⟩ := hwf
    simp only [runBody]
    split_ifs with hpc
    · obtain ⟨hb64, hbits⟩ := hinv
      have hmchar : ∀ j, (sigMaskValue start end_ s.pri c).testBit j = true ↔
          ∃ p, s.pri < p ∧ p ≤ c ∧ j = SIGRTMIN - 1 + (end_ - p) :=
        fun j => sigMaskValue_testBit start end_ s.pri c j h0 h1 (le_of_lt hpc) hcb
      have hm64 : sigMaskValue start end_ s.pri c < 2 ^ 64 :=
        sigMaskValue_lt start end_ s.pri c
      have hinv1 : LockInv start end_
          ⟨c, rt_sigprocmask true (sigMaskValue start end_ s.pri c) s.blocked⟩ := by

        refine ⟨Nat.or_lt_two_pow hb64 hm64, ?_⟩
        intro p hple hcp
        have hcp2 : c < p := hcp
        show (s.blocked ||| sigMaskValue start end_ s.pri c).testBit _ = false
        rw [Nat.testBit_or]
        have hbf := hbits p hple (lt_trans hpc hcp2)
        have hmf : (sigMaskValue start end_ s.pri c).testBit
            (SIGRTMIN - 1 + (end_ - p)) = false := by
          rw [← Bool.not_eq_true, hmchar]
          rintro ⟨p2, hq1, hq2, hq3⟩
          have hpe : p ≤ end_ := by omega
          have hp2e : p2 ≤ end_ := by omega
          simp only [SIGRTMIN] at hq3
          omega
        rw [hbf, hmf]
        rfl
      rw [ih _ hwfb hinv1]
      show (⟨s.pri, rt_sigprocmask false _ _⟩ : LockState) = s
      have hsnd : rt_sigprocmask false (sigMaskValue start end_ s.pri c)
          (rt_sigprocmask true (sigMaskValue start end_ s.pri c) s.blocked) =
            s.blocked := by
        show (s.blocked ||| _) &&& ((2 ^ 64 - 1) ^^^ _) = s.blocked
        apply Nat.eq_of_testBit_eq
        intro k
        rw [Nat.testBit_and, Nat.testBit_or, Nat.testBit_xor,
          Nat.testBit_two_pow_sub_one]
        by_cases hk : k < 64
        · by_cases hmk : (sigMaskValue start end_ s.pri c).testBit k = true
          · obtain ⟨p, hp1, hp2, rfl⟩ := (hmchar k).mp hmk
            have hbf := hbits p (by omega) hp1
            simp [hmk, hbf, hk]
          · rw [Bool.not_eq_true] at hmk
            simp [hmk, hk]
        · have hmkf : (sigMaskValue start end_ s.pri c).testBit k = false :=
            Nat.testBit_lt_two_pow
              (lt_of_lt_of_le hm64 (Nat.pow_le_pow_right (by norm_num) (by omega)))
          have hbkf : s.blocked.testBit k = false :=
            Nat.testBit_lt_two_pow
              (lt_of_lt_of_le hb64 (Nat.pow_le_pow_right (by norm_num) (by omega)))
          simp [hmkf, hbkf, hk]
      obtain ⟨spri, sblocked⟩ := s
      simp only at hsnd
      rw [hsnd]
    · exact ih _ hwfb hinv

/-- C2: for a `lock` call on `range = start..end_` with the state invariant
(no blocked signal above the current priority within the range) and
well-ceilinged nesting: (i) when `current < ceiling`, the mask it blocks for
the body's duration covers exactly the priority levels strictly between the
current priority (exclusive) and the ceiling (inclusive), at their signal
bits within the range; (ii) when `ceiling <= current`, the body runs with no
change at all made by `lock` to the blocked-signal word; (iii) arbitrarily
nested `lock` calls restore both the priority cell and the blocked-signal
word exactly (stack discipline). -/
theorem lock_spec (start end_ ceiling : Nat) (b : Body) (s : LockState)
    (h0 : start ≤ end_) (h1 : end_ ≤ 33) (hceil : ceiling ≤ end_ - start)
    (hwf : BodyWF (end_ - start) b = true) (hinv : LockInv start end_ s) :
    (s.pri ≤ ceiling →
      ∀ k, (sigMaskValue start end_ s.pri ceiling).testBit k = true ↔
        ∃ p, s.pri < p ∧ p ≤ ceiling ∧ k = SIGRTMIN - 1 + (end_ - p)) ∧
    (ceiling ≤ s.pri →
      runBody start end_ (Body.lock ceiling b) s = runBody start end_ b s) ∧
    runBody start end_ (Body.lock ceiling b) s = s := by
  refine ⟨?_, ?_, ?_⟩
  · intro hpc k
    exact sigMaskValue_testBit start end_ s.pri ceiling k h0 h1 hpc hceil
  · intro h
    simp only [runBody]
    rw [if_neg (not_lt.mpr h)]
  · exact runBody_restore start end_ h0 h1 (Body.lock ceiling b) s
      (by simp [BodyWF, hceil, hwf]) hinv

/-- Closed witness for C2: a nested pair of locks (ceilings 3 then 2) taken
at priority 1 over the range `0..4` restores the initial state exactly. -/
theorem lock_spec_witness :
    runBody 0 4 (Body.lock 3 (Body.lock 2 Body.skip)) ⟨1, 0⟩ = ⟨1, 0⟩ :=
  (lock_spec 0 4 3 (Body.lock 2 Body.skip) ⟨1, 0⟩ (by decide) (by decide)
    (by decide) (by decide)
    ⟨by positivity, fun p _ _ => Nat.zero_testBit _⟩).2.2

lemma two_pow_sub_one_shiftRight {a b : Nat} (h : b ≤ a) :
    (2 ^ a - 1) >>> b = 2 ^ (a - b) - 1 := by
  apply Nat.eq_of_testBit_eq
  intro k
  rw [Nat.testBit_shiftRight, Nat.testBit_two_pow_sub_one,
    Nat.testBit_two_pow_sub_one]
  simp only [decide_eq_decide]
  omega

lemma xorRange_testBit {a b : Nat} (j : Nat) (h : b ≤ a) :
    ((2 ^ a - 1) ^^^ (2 ^ b - 1)).testBit j = true ↔ (b ≤ j ∧ j < a) := by
  rw [Nat.testBit_xor, Nat.testBit_two_pow_sub_one, Nat.testBit_two_pow_sub_one]
  by_cases h1 : j < a <;> by_cases h2 : j < b <;> simp [h1, h2] <;> omega

/-- C5: `register(start..end_, priority, handler)` installs the handler on
the signal number of `priority` within the range (`SIGRTMIN + (end_ -
priority)`), and presets the handler's blocked mask to exactly the signals
of the priorities of the range strictly below `priority` — every priority at
or below `priority` except `priority` itself, and nothing else. -/
theorem register_spec (start end_ pr : Nat) (h0 : start ≤ end_)
    (h1 : end_ ≤ 33) (hp1 : 1 ≤ pr) (hp2 : pr ≤ end_ - start) :
    (register start end_ pr).1 = SIGRTMIN + (end_ - pr) ∧
    ∀ k, (register start end_ pr).2.testBit k = true ↔
      ∃ p, 1 ≤ p ∧ p < pr ∧ k = SIGRTMIN - 1 + (end_ - p) := by
  have h256 : end_ < 256 := by omega
  have hpe : pr ≤ end_ := by omega
  have hm0 : ((1 <<< (end_ - start)) - 1) % 2 ^ 64 = 2 ^ (end_ - start) - 1 := by
    rw [Nat.one_shiftLeft]
    exact Nat.mod_eq_of_lt (by
      have h2 : 2 ^ (end_ - start) ≤ 2 ^ 64 := Nat.pow_le_pow_right (by norm_num) (by omega)
      omega)
  constructor
  · unfold register
    rw [wsub8_eq hpe h256]
  · intro k
    unfold register
    simp only
    rw [wsub8_eq h0 h256, wsub8_eq hp1 (by omega), hm0,
      two_pow_sub_one_shiftRight (by omega)]
    have hXlt : (2 ^ (end_ - start) - 1) ^^^ (2 ^ (end_ - start - (pr - 1)) - 1) <
        2 ^ (end_ - start) :=
      Nat.xor_lt_two_pow
        (Nat.sub_lt (pow_pos (by norm_num) _) one_pos)
        (lt_of_lt_of_le (Nat.sub_lt (pow_pos (by norm_num) _) one_pos)
          (Nat.pow_le_pow_right (by norm_num) (by omega)))
    have hmod : (((2 ^ (end_ - start) - 1) ^^^ (2 ^ (end_ - start - (pr - 1)) - 1)) <<<
        (start + SIGRTMIN - 1)) % 2 ^ 64 =
          ((2 ^ (end_ - start) - 1) ^^^ (2 ^ (end_ - start - (pr - 1)) - 1)) <<<
            (start + SIGRTMIN - 1) := by
      apply Nat.mod_eq_of_lt
      rw [Nat.shiftLeft_eq]
      calc _ < 2 ^ (end_ - start) * 2 ^ (start + SIGRTMIN - 1) :=
            mul_lt_mul_of_pos_right hXlt (pow_pos (by norm_num) _)
        _ = 2 ^ ((end_ - start) + (start + SIGRTMIN - 1)) :=
            (pow_add 2 _ _).symm
        _ ≤ 2 ^ 64 :=
            Nat.pow_le_pow_right (by norm_num) (by simp only [SIGRTMIN]; omega)
    rw [hmod, Nat.testBit_shiftLeft]
    simp only [Bool.and_eq_true, decide_eq_true_eq, ge_iff_le,
      xorRange_testBit _ (show end_ - start - (pr - 1) ≤ end_ - start by omega),
      SIGRTMIN]
    constructor
    · rintro ⟨hk1, hk2, hk3⟩
      exact ⟨end_ + 31 - k, by omega, by omega, by omega⟩
    · rintro ⟨p, hq1, hq2, rfl⟩
      refine ⟨by omega, by omega, by omega⟩

/-- Closed witness for C5: registering priority 2 over the range `0..4`
installs the handler on `SIGRTMIN + 2`. -/
theorem register_spec_witness :
    (register 0 4 2).1 = SIGRTMIN + (4 - 2) :=
  (register_spec 0 4 2 (by decide) (by decide) (by decide) (by decide)).1

end RtfmLinux
